import Mathlib

/-!
Verification of the screen-based detection engine of `scripts/scan.py`
(ArchiMonstreTrackerDofus).

The Python source is shallowly embedded: pure helpers become Lean
functions on `Int`/`Nat`/`Rat` (Python ints are unbounded, so no
wrap-around is modelled; float arithmetic on box areas is modelled by
exact rationals), JSON documents become an inductive `Json` value with
Python-dict association-list semantics (insertion order preserved,
`d[k] = v` replaces in place or appends), and the effectful scan loop of
`main` becomes a function producing the trace of persistence events.
-/

namespace ArchiScan

/-- Detection box, mirroring `_Box` in `scan.py` (and the pyscreeze `Box`
fields read by `_rect_iou`): screen coordinates with integer fields. -/
structure Box where
  left : Int
  top : Int
  width : Int
  height : Int
deriving DecidableEq, Repr

/-- Transcription of `_rect_iou(a, b)` from `scan.py`: intersection area
over union area of two boxes, `0` when the union is empty.  Python float
division is modelled by exact rational division. -/
def rectIou (a b : Box) : ℚ :=
  let ax2 := a.left + a.width
  let ay2 := a.top + a.height
  let bx2 := b.left + b.width
  let by2 := b.top + b.height
  let interW := max 0 (min ax2 bx2 - max a.left b.left)
  let interH := max 0 (min ay2 by2 - max a.top b.top)
  let inter := interW * interH
  let union := a.width * a.height + b.width * b.height - inter
  if union = 0 then 0 else (inter : ℚ) / (union : ℚ)

/-- The sort key ordering used by `sorted(boxes, key=lambda b: (b.left, b.top))`:
non-strict lexicographic order on `(left, top)`.  Python `sorted` is a
stable ascending sort by this key, which is exactly
`List.insertionSort keyLe`. -/
def keyLe (a b : Box) : Prop :=
  a.left < b.left ∨ (a.left = b.left ∧ a.top ≤ b.top)

instance : DecidableRel keyLe := fun a b => by
  unfold keyLe; exact inferInstance

instance : IsTotal Box keyLe :=
  ⟨fun a b => by unfold keyLe; omega⟩

instance : IsTrans Box keyLe :=
  ⟨fun a b c hab hbc => by unfold keyLe at *; omega⟩

/-- The strict version of the sort key order, used to show that sorted
lists with pairwise-distinct keys are unique. -/
def keyLt (a b : Box) : Prop :=
  a.left < b.left ∨ (a.left = b.left ∧ a.top < b.top)

instance : IsAntisymm Box keyLt :=
  ⟨fun a b hab hba => by unfold keyLt at *; omega⟩

/-- `sorted(boxes, key=lambda b: (b.left, b.top))` from `_dedup_overlaps`. -/
def sortBoxes (boxes : List Box) : List Box :=
  List.insertionSort keyLe boxes

/-- The greedy keep loop of `_dedup_overlaps`: walk the sorted boxes and
append a box to `kept` only when its IoU with every already-kept box is
strictly below the threshold. -/
def dedupGo (thr : ℚ) (kept : List Box) : List Box → List Box
  | [] => kept
  | b :: bs =>
    if kept.all (fun k => decide (rectIou b k < thr)) then
      dedupGo thr (kept ++ [b]) bs
    else
      dedupGo thr kept bs

/-- Transcription of `_dedup_overlaps(boxes, iou_threshold)` from `scan.py`:
early-return on an empty input, sort by `(left, top)`, then greedily keep. -/
def dedupOverlaps (thr : ℚ) (boxes : List Box) : List Box :=
  if boxes.isEmpty then boxes
  else dedupGo thr [] (sortBoxes boxes)

/-- `IOU_THRESHOLD = 0.6` from the configuration block of `scan.py`. -/
def IOU_THRESHOLD : ℚ := 6 / 10

/-- Two boxes have distinct sort keys `(left, top)`. -/
def keyNe (a b : Box) : Prop :=
  a.left ≠ b.left ∨ a.top ≠ b.top

instance : DecidableRel keyNe := fun a b => by
  unfold keyNe; exact inferInstance

theorem keyNe_symm : ∀ {a b : Box}, keyNe a b → keyNe b a := by
  intro a b h; unfold keyNe at *; omega

/-- The overlap ratio of `_rect_iou` is symmetric in its two arguments. -/
theorem rectIou_comm (a b : Box) : rectIou a b = rectIou b a := by
  simp only [rectIou]
  rw [min_comm (a.left + a.width), max_comm a.left, min_comm (a.top + a.height),
    max_comm a.top, add_comm (a.width * a.height)]

/-- The greedy keep loop extends `kept` by a sublist of the remaining boxes. -/
theorem dedupGo_sublist (thr : ℚ) :
    ∀ (rest kept : List Box), ∃ sub, dedupGo thr kept rest = kept ++ sub ∧ sub.Sublist rest := by
  intro rest
  induction rest with
  | nil => intro kept; exact ⟨[], by simp [dedupGo], List.Sublist.refl _⟩
  | cons b bs ih =>
    intro kept
    by_cases h : kept.all (fun k => decide (rectIou b k < thr)) = true
    · obtain ⟨sub, hEq, hSub⟩ := ih (kept ++ [b])
      refine ⟨b :: sub, ?_, hSub.cons₂ b⟩
      rw [dedupGo, if_pos h, hEq, List.append_assoc]
      rfl
    · obtain ⟨sub, hEq, hSub⟩ := ih kept
      exact ⟨sub, by rw [dedupGo, if_neg h]; exact hEq, hSub.cons b⟩

/-- The greedy keep loop preserves the invariant that all kept boxes are
pairwise below the overlap threshold. -/
theorem dedupGo_pairwise (thr : ℚ) :
    ∀ (rest kept : List Box),
      List.Pairwise (fun a b => rectIou a b < thr) kept →
      List.Pairwise (fun a b => rectIou a b < thr) (dedupGo thr kept rest) := by
  intro rest
  induction rest with
  | nil => intro kept hk; simpa [dedupGo] using hk
  | cons b bs ih =>
    intro kept hk
    by_cases h : kept.all (fun k => decide (rectIou b k < thr)) = true
    · rw [dedupGo, if_pos h]
      refine ih (kept ++ [b]) ?_
      rw [List.pairwise_append]
      refine ⟨hk, List.pairwise_singleton _ _, ?_⟩
      intro a ha b' hb'
      rw [List.mem_singleton] at hb'
      subst hb'
      have := (List.all_eq_true.mp h) a ha
      rw [decide_eq_true_eq] at this
      rw [rectIou_comm]
      exact this
    · rw [dedupGo, if_neg h]
      exact ih kept hk

/-- A sorted permutation of a list with pairwise-distinct `(left, top)` keys
is unique, so two permutations of such a list sort identically. -/
theorem sortBoxes_eq_of_perm (l₁ l₂ : List Box) (hp : l₁.Perm l₂)
    (hk : List.Pairwise keyNe l₁) : sortBoxes l₁ = sortBoxes l₂ := by
  have hk₂ : List.Pairwise keyNe l₂ := (hp.pairwise_iff keyNe_symm).mp hk
  have strict : ∀ (l : List Box), List.Pairwise keyNe l →
      List.Sorted keyLt (sortBoxes l) := by
    intro l hl
    have hle : List.Sorted keyLe (sortBoxes l) := List.sorted_insertionSort keyLe l
    have hne : List.Pairwise keyNe (sortBoxes l) :=
      ((List.perm_insertionSort keyLe l).pairwise_iff keyNe_symm).mpr hl
    refine (hle.and hne).imp ?_
    intro a b hab
    obtain ⟨h1, h2⟩ := hab
    unfold keyLe at h1; unfold keyNe at h2; unfold keyLt
    omega
  have hperm : (sortBoxes l₁).Perm (sortBoxes l₂) :=
    (List.perm_insertionSort keyLe l₁).trans
      (hp.trans (List.perm_insertionSort keyLe l₂).symm)
  exact List.eq_of_perm_of_sorted hperm (strict l₁ hk) (strict l₂ hk₂)

/-- C4: For every threshold and input list, `_dedup_overlaps` returns a
sub-collection of the input (a sublist of a permutation of the input, so of
length at most the input length), and every two boxes of the output have
pairwise overlap ratio strictly below the threshold. -/
theorem dedup_subperm_pairwise (thr : ℚ) (l : List Box) :
    List.Subperm (dedupOverlaps thr l) l ∧
    (dedupOverlaps thr l).length ≤ l.length ∧
    List.Pairwise (fun a b => rectIou a b < thr) (dedupOverlaps thr l) := by
  by_cases hl : l.isEmpty
  · rw [dedupOverlaps, if_pos hl]
    rw [List.isEmpty_iff] at hl
    subst hl
    exact ⟨List.nil_subperm, Nat.le_refl _, List.Pairwise.nil⟩
  · rw [dedupOverlaps, if_neg hl]
    obtain ⟨sub, hEq, hSub⟩ := dedupGo_sublist thr (sortBoxes l) []
    rw [List.nil_append] at hEq
    have hsp : List.Subperm (dedupGo thr [] (sortBoxes l)) l := by
      rw [hEq]
      exact (hSub.subperm).trans (List.perm_insertionSort keyLe l).subperm
    exact ⟨hsp, hsp.length_le, dedupGo_pairwise thr (sortBoxes l) [] List.Pairwise.nil⟩

/-- C3 (amended): `_dedup_overlaps` is permutation-invariant whenever no two
input boxes share the same `(left, top)` sort key: the stable sort then has a
unique result, and the greedy loop is a function of the sorted list. -/
theorem dedup_perm_invariant_of_distinct_keys (thr : ℚ) (l₁ l₂ : List Box)
    (hp : l₁.Perm l₂) (hk : List.Pairwise keyNe l₁) :
    dedupOverlaps thr l₁ = dedupOverlaps thr l₂ := by
  by_cases hl : l₁.isEmpty
  · rw [List.isEmpty_iff] at hl
    subst hl
    rw [(hp.symm).eq_nil]
  · have hl₂ : ¬ l₂.isEmpty = true := by
      rw [List.isEmpty_iff] at hl ⊢
      intro h
      subst h
      exact hl hp.eq_nil
    rw [dedupOverlaps, dedupOverlaps, if_neg hl, if_neg hl₂,
      sortBoxes_eq_of_perm l₁ l₂ hp hk]

/-- Witness for C3's amended theorem: two orderings of two key-distinct
boxes deduplicate identically. -/
theorem dedup_perm_invariant_witness :
    dedupOverlaps IOU_THRESHOLD [⟨0, 0, 10, 10⟩, ⟨5, 0, 10, 10⟩] =
      dedupOverlaps IOU_THRESHOLD [⟨5, 0, 10, 10⟩, ⟨0, 0, 10, 10⟩] :=
  dedup_perm_invariant_of_distinct_keys IOU_THRESHOLD _ _ (by decide) (by decide)

/-- Counterexample to C3 as stated: the sort key `(left, top)` ignores box
sizes, so two same-corner boxes of different sizes with overlap ratio
`25/36 ≥ 0.6` keep whichever came first in the input; the two orderings
produce different kept sets. -/
theorem dedup_perm_sensitive :
    List.Perm [(⟨0, 0, 10, 10⟩ : Box), ⟨0, 0, 12, 12⟩] [⟨0, 0, 12, 12⟩, ⟨0, 0, 10, 10⟩] ∧
    dedupOverlaps IOU_THRESHOLD [⟨0, 0, 10, 10⟩, ⟨0, 0, 12, 12⟩] = [⟨0, 0, 10, 10⟩] ∧
    dedupOverlaps IOU_THRESHOLD [⟨0, 0, 12, 12⟩, ⟨0, 0, 10, 10⟩] = [⟨0, 0, 12, 12⟩] ∧
    (⟨0, 0, 10, 10⟩ : Box) ≠ ⟨0, 0, 12, 12⟩ := by
  have hi : rectIou (⟨0, 0, 12, 12⟩ : Box) ⟨0, 0, 10, 10⟩ = 25 / 36 := by
    norm_num [rectIou]
  have hi' : rectIou (⟨0, 0, 10, 10⟩ : Box) ⟨0, 0, 12, 12⟩ = 25 / 36 := by
    norm_num [rectIou]
  have hlt : ¬ ((25 : ℚ) / 36 < IOU_THRESHOLD) := by norm_num [IOU_THRESHOLD]
  refine ⟨by decide, ?_, ?_, by decide⟩
  · have hs : sortBoxes [(⟨0, 0, 10, 10⟩ : Box), ⟨0, 0, 12, 12⟩] =
        [⟨0, 0, 10, 10⟩, ⟨0, 0, 12, 12⟩] := by decide
    rw [dedupOverlaps, if_neg (by decide), hs]
    simp only [dedupGo, List.all_nil, List.all_cons, List.nil_append, if_true, hi,
      Bool.and_true, and_true]
    rw [decide_eq_false hlt]
    simp [dedupGo]
  · have hs : sortBoxes [(⟨0, 0, 12, 12⟩ : Box), ⟨0, 0, 10, 10⟩] =
        [⟨0, 0, 12, 12⟩, ⟨0, 0, 10, 10⟩] := by decide
    rw [dedupOverlaps, if_neg (by decide), hs]
    simp only [dedupGo, List.all_nil, List.all_cons, List.nil_append, if_true, hi',
      Bool.and_true, and_true]
    rw [decide_eq_false hlt]
    simp [dedupGo]

/-! ## ProfileStore persistence (`_load_all_results` / `save_results_profile`)

JSON documents are modelled by an inductive value whose objects are
association lists in insertion order, matching Python dict semantics:
`d[k] = v` replaces the existing entry in place or appends a new one,
`d.update(u)` applies `d[k] = v` for each entry of `u` in order, and
deleting the keys outside a set keeps the remaining entries in order. -/

/-- JSON values as read/written by `json.load` / `json.dump` in `scan.py`. -/
inductive Json where
  | null
  | bool (b : Bool)
  | num (n : Int)
  | str (s : String)
  | arr (xs : List Json)
  | obj (kvs : List (String × Json))

/-- Python `d.get(k)` / `k in d` on an insertion-ordered dict. -/
def dget : List (String × Json) → String → Option Json
  | [], _ => none
  | (k', v) :: rest, k => if k' = k then some v else dget rest k

/-- Python `d[k] = v`: replace in place if the key exists, else append. -/
def dset : List (String × Json) → String → Json → List (String × Json)
  | [], k, v => [(k, v)]
  | (k', v') :: rest, k, v =>
    if k' = k then (k, v) :: rest else (k', v') :: dset rest k v

/-- Python `d.update(u)`: apply `d[k] = v` for each entry of `u` in order. -/
def dupdate (d u : List (String × Json)) : List (String × Json) :=
  u.foldl (fun acc kv => dset acc kv.1 kv.2) d

/-- The state of the results file as seen by `_load_all_results`:
missing, unreadable/corrupted (`json.load` raised), or parsed content. -/
inductive FileState where
  | missing
  | unreadable
  | content (j : Json)

def kProfiles : String := "profiles"
def kActiveProfile : String := "activeProfile"
def kCounts : String := "counts"
def kDefault : String := "default"

/-- Transcription of `_load_all_results(path)` from `scan.py`: a missing or
unreadable file (or a falsy/non-object parse, via `json.load(f) or {}`)
becomes the empty dict; a document whose `profiles` key holds a dict is
returned as is; an old flat document carrying a `counts` key is wrapped as
the `default` profile and mirrored at top level; anything else becomes the
empty store. -/
def loadAllResults (file : FileState) : List (String × Json) :=
  let data : List (String × Json) :=
    match file with
    | .content (.obj kvs) => kvs
    | _ => []
  match dget data kProfiles with
  | some (.obj _) => data
  | _ =>
    if (dget data kCounts).isSome then
      dupdate [(kProfiles, .obj [(kDefault, .obj data)]), (kActiveProfile, .str kDefault)] data
    else
      [(kProfiles, .obj []), (kActiveProfile, .str kDefault)]

/-- `data.get('profiles') or {}` as used by `save_results_profile`: the
dict under the `profiles` key, or the empty dict (a store-shaped document
never holds a truthy non-dict there). -/
def profilesOf (doc : List (String × Json)) : List (String × Json) :=
  match dget doc kProfiles with
  | some (.obj ps) => ps
  | _ => []

/-- Transcription of `save_results_profile(path, profile, payload)` from
`scan.py`: load the whole document, set `profiles[profile] = payload` and
`activeProfile = profile`, delete every other top-level key, then
`data.update(payload)` as the legacy top-level mirror.  The atomic
temp-file/rename step is not modelled; the function returns the document
written to disk. -/
def saveResultsProfile (file : FileState) (profile : String)
    (payload : List (String × Json)) : List (String × Json) :=
  let data := loadAllResults file
  let profiles1 := dset (profilesOf data) profile (.obj payload)
  let data1 := dset data kProfiles (.obj profiles1)
  let data2 := dset data1 kActiveProfile (.str profile)
  let data3 := data2.filter (fun kv => kv.1 == kProfiles || kv.1 == kActiveProfile)
  dupdate data3 payload

/-- The `profiles[p]` entry of a store document, `none` when the document
has no dict-valued `profiles` key. -/
def getProfile (doc : List (String × Json)) (p : String) : Option Json :=
  match dget doc kProfiles with
  | some (.obj ps) => dget ps p
  | _ => none

theorem getProfile_eq (doc : List (String × Json)) (p : String) :
    getProfile doc p = dget (profilesOf doc) p := by
  unfold getProfile profilesOf
  cases h : dget doc kProfiles with
  | none => simp [dget]
  | some j => cases j <;> simp [dget]

theorem profilesOf_of_dget {doc : List (String × Json)} {ps : List (String × Json)}
    (h : dget doc kProfiles = some (.obj ps)) : profilesOf doc = ps := by
  unfold profilesOf
  rw [h]

/-! Dictionary-operation lemmas. -/

theorem dget_dset_self : ∀ (kvs : List (String × Json)) (k : String) (v : Json),
    dget (dset kvs k v) k = some v := by
  intro kvs k v
  induction kvs with
  | nil => simp [dset, dget]
  | cons kv rest ih =>
    by_cases h : kv.1 = k
    · simp [dset, h, dget]
    · simp only [dset]
      rw [if_neg h]
      simpa [dget, h] using ih

theorem dget_dset_ne : ∀ (kvs : List (String × Json)) (k : String) (v : Json) (k' : String),
    k' ≠ k → dget (dset kvs k v) k' = dget kvs k' := by
  intro kvs k v k' hne
  induction kvs with
  | nil =>
    simp only [dset, dget]
    rw [if_neg (fun h : k = k' => hne h.symm)]
  | cons kv rest ih =>
    by_cases h : kv.1 = k
    · simp only [dset]
      rw [if_pos h]
      simp only [dget]
      rw [if_neg (fun hh : k = k' => hne hh.symm),
        if_neg (fun h2 : kv.1 = k' => hne (h2.symm.trans h))]
    · simp only [dset]
      rw [if_neg h]
      simp only [dget]
      by_cases h2 : kv.1 = k'
      · rw [if_pos h2, if_pos h2]
      · rw [if_neg h2, if_neg h2]
        exact ih

theorem dget_eq_none_iff (kvs : List (String × Json)) (k : String) :
    dget kvs k = none ↔ k ∉ kvs.map Prod.fst := by
  induction kvs with
  | nil => simp [dget]
  | cons kv rest ih =>
    simp only [dget, List.map_cons, List.mem_cons]
    by_cases h : kv.1 = k
    · simp [h]
    · rw [if_neg h, ih]
      constructor
      · intro hn hc
        rcases hc with hc | hc
        · exact h hc.symm
        · exact hn hc
      · intro hc hm
        exact hc (Or.inr hm)

theorem dget_dupdate_none : ∀ (u d : List (String × Json)) (k : String),
    dget u k = none → dget (dupdate d u) k = dget d k := by
  intro u
  induction u with
  | nil => intro d k _; rfl
  | cons kv u' ih =>
    intro d k hu
    simp only [dget] at hu
    by_cases h : kv.1 = k
    · rw [if_pos h] at hu
      exact absurd hu (by simp)
    · rw [if_neg h] at hu
      show dget (dupdate (dset d kv.1 kv.2) u') k = dget d k
      rw [ih _ k hu, dget_dset_ne _ _ _ _ (fun hk => h hk.symm)]

theorem dget_dupdate_some : ∀ (u d : List (String × Json)) (k : String) (v : Json),
    (u.map Prod.fst).Nodup → dget u k = some v → dget (dupdate d u) k = some v := by
  intro u
  induction u with
  | nil => intro d k v _ h; simp [dget] at h
  | cons kv u' ih =>
    intro d k v hnd hu
    simp only [List.map_cons, List.nodup_cons] at hnd
    simp only [dget] at hu
    by_cases h : kv.1 = k
    · rw [if_pos h] at hu
      have hnone : dget u' k = none :=
        (dget_eq_none_iff u' k).mpr (h ▸ hnd.1)
      show dget (dupdate (dset d kv.1 kv.2) u') k = some v
      rw [dget_dupdate_none _ _ _ hnone, h, dget_dset_self]
      exact congrArg some (Option.some.inj hu)
    · rw [if_neg h] at hu
      exact ih _ k v hnd.2 hu

theorem dset_eq_append (d : List (String × Json)) (k : String) (v : Json)
    (h : dget d k = none) : dset d k v = d ++ [(k, v)] := by
  induction d with
  | nil => rfl
  | cons kv rest ih =>
    simp only [dget] at h
    by_cases hk : kv.1 = k
    · rw [if_pos hk] at h
      exact absurd h (by simp)
    · rw [if_neg hk] at h
      simp only [dset]
      rw [if_neg hk, ih h]
      rfl

theorem dupdate_eq_append : ∀ (u d : List (String × Json)),
    (u.map Prod.fst).Nodup → (∀ kv ∈ u, dget d kv.1 = none) →
    dupdate d u = d ++ u := by
  intro u
  induction u with
  | nil => intro d _ _; simp [dupdate]
  | cons kv u' ih =>
    intro d hnd hfresh
    simp only [List.map_cons, List.nodup_cons] at hnd
    show dupdate (dset d kv.1 kv.2) u' = d ++ kv :: u'
    rw [dset_eq_append d kv.1 kv.2 (hfresh kv (List.mem_cons_self _ _))]
    rw [ih (d ++ [(kv.1, kv.2)]) hnd.2 ?fresh]
    · rw [List.append_assoc]
      rfl
    case fresh =>
      intro kv' hkv'
      have h1 : dget d kv'.1 = none := hfresh kv' (List.mem_cons_of_mem _ hkv')
      have h2 : kv'.1 ≠ kv.1 := by
        intro he
        exact hnd.1 (he ▸ List.mem_map_of_mem Prod.fst hkv')
      rw [dget_eq_none_iff] at h1 ⊢
      simp only [List.map_append, List.mem_append]
      intro hc
      rcases hc with hc | hc
      · exact h1 hc
      · simp only [List.map_cons, List.map_nil, List.mem_singleton] at hc
        exact h2 hc

/-- Reading a key that the reserved-key filter retains is unaffected. -/
theorem dget_filter_reserved (kvs : List (String × Json)) (k : String)
    (hk : (k == kProfiles || k == kActiveProfile) = true) :
    dget (kvs.filter (fun kv => kv.1 == kProfiles || kv.1 == kActiveProfile)) k = dget kvs k := by
  induction kvs with
  | nil => rfl
  | cons kv rest ih =>
    rw [List.filter_cons]
    by_cases h : (kv.1 == kProfiles || kv.1 == kActiveProfile) = true
    · rw [if_pos h]
      simp only [dget]
      by_cases h2 : kv.1 = k
      · rw [if_pos h2, if_pos h2]
      · rw [if_neg h2, if_neg h2, ih]
    · rw [if_neg h]
      simp only [dget]
      have h2 : kv.1 ≠ k := by
        intro he
        exact h (he ▸ hk)
      rw [if_neg h2, ih]

/-- Reading a key that the reserved-key filter drops yields `none`. -/
theorem dget_filter_dropped (kvs : List (String × Json)) (k : String)
    (hk : (k == kProfiles || k == kActiveProfile) = false) :
    dget (kvs.filter (fun kv => kv.1 == kProfiles || kv.1 == kActiveProfile)) k = none := by
  induction kvs with
  | nil => rfl
  | cons kv rest ih =>
    rw [List.filter_cons]
    by_cases h : (kv.1 == kProfiles || kv.1 == kActiveProfile) = true
    · rw [if_pos h]
      simp only [dget]
      have h2 : kv.1 ≠ k := by
        intro he
        rw [he, hk] at h
        exact Bool.false_ne_true h
      rw [if_neg h2]
      exact ih
    · rw [if_neg h]
      exact ih

/-- After a save whose payload has no `profiles` key, the document's
`profiles` key holds the loaded profile map with the saved entry replaced. -/
theorem save_dget_profiles (file : FileState) (p : String) (payload : List (String × Json))
    (h1 : dget payload kProfiles = none) :
    dget (saveResultsProfile file p payload) kProfiles =
      some (.obj (dset (profilesOf (loadAllResults file)) p (.obj payload))) := by
  simp only [saveResultsProfile]
  rw [dget_dupdate_none _ _ _ h1, dget_filter_reserved _ _ (by decide),
    dget_dset_ne _ _ _ _ (by decide), dget_dset_self]

/-- After a save whose payload has no `activeProfile` key, the document's
`activeProfile` is the saved profile id. -/
theorem save_dget_active (file : FileState) (p : String) (payload : List (String × Json))
    (h2 : dget payload kActiveProfile = none) :
    dget (saveResultsProfile file p payload) kActiveProfile = some (.str p) := by
  simp only [saveResultsProfile]
  rw [dget_dupdate_none _ _ _ h2, dget_filter_reserved _ _ (by decide), dget_dset_self]

/-- A document just written by `save_results_profile` reloads as itself:
its `profiles` key holds a dict, so `_load_all_results` takes the
profiled-shape branch. -/
theorem load_of_saved (file : FileState) (p : String) (payload : List (String × Json))
    (h1 : dget payload kProfiles = none) :
    loadAllResults (.content (.obj (saveResultsProfile file p payload)))
      = saveResultsProfile file p payload := by
  simp only [loadAllResults]
  rw [save_dget_profiles file p payload h1]

/-- C2 (amended): for every payload whose keys avoid the two reserved
top-level keys `profiles` and `activeProfile`, `save_results_profile`
stores the payload under the named profile, marks that profile active,
leaves every other profile's entry as loaded, and a second such save under
a different profile preserves the first profile's payload on reload.
(The reservation is forced: the final `data.update(payload)` legacy mirror
would let a payload key named `profiles` or `activeProfile` overwrite the
store's own bookkeeping, see the counterexample.) -/
theorem save_profile_frame (file : FileState) (p : String) (payload : List (String × Json))
    (h1 : dget payload kProfiles = none) (h2 : dget payload kActiveProfile = none) :
    getProfile (saveResultsProfile file p payload) p = some (.obj payload) ∧
    dget (saveResultsProfile file p payload) kActiveProfile = some (.str p) ∧
    (∀ q, q ≠ p →
      getProfile (saveResultsProfile file p payload) q = getProfile (loadAllResults file) q) ∧
    (∀ q vq, q ≠ p → dget vq kProfiles = none →
      getProfile (saveResultsProfile (.content (.obj (saveResultsProfile file p payload))) q vq) p
        = some (.obj payload)) := by
  have hpo : profilesOf (saveResultsProfile file p payload)
      = dset (profilesOf (loadAllResults file)) p (.obj payload) :=
    profilesOf_of_dget (save_dget_profiles file p payload h1)
  refine ⟨?_, save_dget_active file p payload h2, ?_, ?_⟩
  · rw [getProfile_eq, hpo, dget_dset_self]
  · intro q hq
    rw [getProfile_eq, hpo, dget_dset_ne _ _ _ _ hq, ← getProfile_eq]
  · intro q vq hq hvq
    have hpo2 : profilesOf
        (saveResultsProfile (.content (.obj (saveResultsProfile file p payload))) q vq)
        = dset (profilesOf (loadAllResults
            (.content (.obj (saveResultsProfile file p payload))))) q (.obj vq) :=
      profilesOf_of_dget (save_dget_profiles _ q vq hvq)
    rw [getProfile_eq, hpo2, dget_dset_ne _ _ _ _ (fun he => hq he.symm),
      load_of_saved file p payload h1, hpo, dget_dset_self]

/-- Witness for C2's amended theorem: writing profile `a`, then profile
`b`, then reading `a` back returns `a`'s original payload. -/
theorem save_profile_frame_witness :
    getProfile (saveResultsProfile
        (.content (.obj (saveResultsProfile FileState.missing "a" [(kCounts, Json.obj [])])))
        "b" [(kCounts, Json.num 1)]) "a" = some (Json.obj [(kCounts, Json.obj [])]) :=
  (save_profile_frame FileState.missing "a" [(kCounts, Json.obj [])] rfl rfl).2.2.2
    "b" [(kCounts, Json.num 1)] (by decide) rfl

/-- Counterexample to C2 as stated (quantifying over every payload): the
legacy mirror step `data.update(payload)` lets a payload containing a
`profiles` key overwrite the whole profile map, so writing profile `a`,
then writing profile `b` with such a payload, loses `a`'s entry entirely. -/
theorem save_reserved_key_clobbers :
    getProfile (saveResultsProfile FileState.missing "a" [(kCounts, Json.obj [])]) "a"
      = some (Json.obj [(kCounts, Json.obj [])]) ∧
    getProfile (saveResultsProfile
        (.content (.obj (saveResultsProfile FileState.missing "a" [(kCounts, Json.obj [])])))
        "b" [(kProfiles, Json.num 0)]) "a" = none :=
  ⟨rfl, rfl⟩

/-- C8: `_load_all_results` wraps an old flat document (a `counts`-bearing
dict without a profiled shape) as the `default` profile, records
`activeProfile = "default"`, and keeps the flat payload's own entries
readable at top level; a missing or unreadable document loads as the empty
store rather than an error. -/
theorem load_legacy_wrap_and_corrupt :
    (∀ kvs : List (String × Json),
      dget kvs kProfiles = none → dget kvs kActiveProfile = none →
      (dget kvs kCounts).isSome → (kvs.map Prod.fst).Nodup →
      dget (loadAllResults (.content (.obj kvs))) kProfiles
          = some (.obj [(kDefault, .obj kvs)]) ∧
      dget (loadAllResults (.content (.obj kvs))) kActiveProfile = some (.str kDefault) ∧
      ∀ k, k ≠ kProfiles → k ≠ kActiveProfile →
        dget (loadAllResults (.content (.obj kvs))) k = dget kvs k) ∧
    loadAllResults .unreadable = [(kProfiles, .obj []), (kActiveProfile, .str kDefault)] ∧
    loadAllResults .missing = [(kProfiles, .obj []), (kActiveProfile, .str kDefault)] := by
  refine ⟨?_, rfl, rfl⟩
  intro kvs hp ha hc hnd
  have hload : loadAllResults (.content (.obj kvs)) =
      dupdate [(kProfiles, .obj [(kDefault, .obj kvs)]), (kActiveProfile, .str kDefault)] kvs := by
    simp only [loadAllResults]
    rw [hp, if_pos hc]
  refine ⟨?_, ?_, ?_⟩
  · rw [hload, dget_dupdate_none kvs _ _ hp]
    simp [dget]
  · rw [hload, dget_dupdate_none kvs _ _ ha]
    simp [dget, kProfiles, kActiveProfile]
  · intro k hk1 hk2
    rw [hload]
    have hbase : dget [(kProfiles, Json.obj [(kDefault, Json.obj kvs)]),
        (kActiveProfile, Json.str kDefault)] k = none := by
      simp only [dget]
      rw [if_neg (fun h => hk1 h.symm), if_neg (fun h => hk2 h.symm)]
    cases hdg : dget kvs k with
    | some v => rw [dget_dupdate_some kvs _ k v hnd hdg]
    | none =>
      rw [dget_dupdate_none kvs _ k hdg]
      exact hbase

/-- Witness for C8: the flat document `{"counts": {}}` loads wrapped under
the `default` profile with its content preserved. -/
theorem load_legacy_wrap_witness :
    dget (loadAllResults (.content (.obj [(kCounts, Json.obj [])]))) kProfiles
      = some (.obj [(kDefault, .obj [(kCounts, Json.obj [])])]) ∧
    dget (loadAllResults (.content (.obj [(kCounts, Json.obj [])]))) kActiveProfile
      = some (.str kDefault) ∧
    dget (loadAllResults (.content (.obj [(kCounts, Json.obj [])]))) kCounts
      = some (Json.obj []) :=
  by
    have h := load_legacy_wrap_and_corrupt.1 [(kCounts, Json.obj [])] rfl rfl rfl (by decide)
    refine ⟨h.1, h.2.1, ?_⟩
    rw [h.2.2 kCounts (by decide) (by decide)]
    simp [dget]

/-- C10 (amended): for payloads with distinct keys avoiding the reserved
top-level keys, the saved document's entries outside `profiles` and
`activeProfile` are exactly the payload's entries — any previous top-level
mirror is removed by the delete loop before `data.update(payload)`. -/
theorem save_mirror_exact (file : FileState) (p : String) (payload : List (String × Json))
    (h1 : dget payload kProfiles = none) (h2 : dget payload kActiveProfile = none)
    (hnd : (payload.map Prod.fst).Nodup) :
    (saveResultsProfile file p payload).filter
      (fun kv => !(kv.1 == kProfiles || kv.1 == kActiveProfile)) = payload := by
  have hmem : ∀ kv ∈ payload, (kv.1 == kProfiles || kv.1 == kActiveProfile) = false := by
    intro kv hkv
    rw [dget_eq_none_iff] at h1 h2
    have m1 : kv.1 ≠ kProfiles := fun he => h1 (he ▸ List.mem_map_of_mem Prod.fst hkv)
    have m2 : kv.1 ≠ kActiveProfile := fun he => h2 (he ▸ List.mem_map_of_mem Prod.fst hkv)
    simp [m1, m2]
  simp only [saveResultsProfile]
  rw [dupdate_eq_append payload _ hnd ?fresh]
  case fresh =>
    intro kv hkv
    exact dget_filter_dropped _ _ (hmem kv hkv)
  rw [List.filter_append, List.filter_filter]
  simp only [Bool.not_and_self]
  rw [List.filter_false, List.nil_append]
  exact List.filter_eq_self.mpr (fun kv hkv => by rw [hmem kv hkv]; rfl)

/-- Witness for C10's amended theorem: a one-key payload is mirrored
exactly at top level. -/
theorem save_mirror_exact_witness :
    (saveResultsProfile FileState.missing "p" [(kCounts, Json.num 3)]).filter
      (fun kv => !(kv.1 == kProfiles || kv.1 == kActiveProfile)) = [(kCounts, Json.num 3)] :=
  save_mirror_exact FileState.missing "p" [(kCounts, Json.num 3)] rfl rfl (by decide)

/-- Counterexample to C10 as stated (quantifying over every payload): a
payload whose key is itself `activeProfile` is consumed by the reserved
keys, so the top-level mirror is empty while the payload is not — the
mirror's keys are not the payload's keys. -/
theorem mirror_reserved_key_cex :
    (saveResultsProfile FileState.missing "p" [(kActiveProfile, Json.str "z")]).filter
      (fun kv => !(kv.1 == kProfiles || kv.1 == kActiveProfile)) = [] ∧
    [(kActiveProfile, Json.str "z")] ≠ ([] : List (String × Json)) :=
  ⟨rfl, List.cons_ne_nil _ _⟩

/-! ## The scan loop of `main` (persistence-event trace)

`main`'s loop is embedded as a trace of its observable persistence
effects.  Per-name UI work (`click_and_type`, the settle delay, the icon
count) does not touch the store, so it is abstracted away; what remains
is: for each processed name the counter increments, every `SAVE_EVERY`-th
name a checkpoint `save_results_profile` runs, after a completed loop one
final `save_results_profile` runs, and the `finally:` block always stops
the hotkey listener.  An abort (the pyautogui fail-safe raised inside
`click_and_type`, or an external `KeyboardInterrupt`) is modelled by the
index of the name during whose processing the exception fires: the
exception propagates out of the `try:` body — only `finally:` runs. -/

inductive Event where
  | checkpointSave (scanned : Nat)
  | finalSave (scanned : Nat)
  | stopListener
deriving DecidableEq, Repr

/-- `SAVE_EVERY = 12` from the configuration block of `scan.py`. -/
def SAVE_EVERY : Nat := 12

/-- The persistence events emitted by the `for name in names:` loop body,
given the number of names already scanned; `abortAt = some j` aborts the
loop while processing the name that follows `j` completed ones. -/
def scanEvents (K : Nat) (abortAt : Option Nat) : List String → Nat → List Event
  | [], _ => []
  | _ :: rest, scanned =>
    if abortAt = some scanned then []
    else
      (if (scanned + 1) % K = 0 then [Event.checkpointSave (scanned + 1)] else []) ++
        scanEvents K abortAt rest (scanned + 1)

/-- Whether the loop runs to completion (no abort fires). -/
def scanCompletes (abortAt : Option Nat) : List String → Nat → Bool
  | [], _ => true
  | _ :: rest, scanned =>
    if abortAt = some scanned then false
    else scanCompletes abortAt rest (scanned + 1)

/-- The event trace of `main`'s `try/finally` block: loop events, then the
final `save_results_profile` only when the loop completed, then the
`finally:` listener cleanup in every case. -/
def runMain (K : Nat) (names : List String) (abortAt : Option Nat) : List Event :=
  (if scanCompletes abortAt names 0 then
      scanEvents K abortAt names 0 ++ [Event.finalSave names.length]
    else scanEvents K abortAt names 0) ++ [Event.stopListener]

theorem finalSave_not_mem_scanEvents (K : Nat) (abortAt : Option Nat) :
    ∀ (names : List String) (scanned m : Nat),
      Event.finalSave m ∉ scanEvents K abortAt names scanned := by
  intro names
  induction names with
  | nil => intro scanned m h; simp [scanEvents] at h
  | cons nm rest ih =>
    intro scanned m h
    rw [scanEvents] at h
    by_cases ha : abortAt = some scanned
    · rw [if_pos ha] at h
      simp at h
    · rw [if_neg ha, List.mem_append] at h
      rcases h with h | h
      · by_cases hk : (scanned + 1) % K = 0
        · rw [if_pos hk] at h
          simp at h
        · rw [if_neg hk] at h
          simp at h
      · exact ih (scanned + 1) m h

theorem scanCompletes_none : ∀ (names : List String) (scanned : Nat),
    scanCompletes none names scanned = true := by
  intro names
  induction names with
  | nil => intro scanned; rfl
  | cons nm rest ih =>
    intro scanned
    rw [scanCompletes, if_neg (by simp)]
    exact ih (scanned + 1)

theorem scanCompletes_abort (j : Nat) : ∀ (names : List String) (scanned : Nat),
    scanned ≤ j → j < scanned + names.length →
    scanCompletes (some j) names scanned = false := by
  intro names
  induction names with
  | nil =>
    intro scanned h1 h2
    simp at h2
    omega
  | cons nm rest ih =>
    intro scanned h1 h2
    rw [scanCompletes]
    by_cases ha : (some j : Option Nat) = some scanned
    · rw [if_pos ha]
    · rw [if_neg ha]
      have hne : j ≠ scanned := fun he => ha (congrArg some he)
      exact ih (scanned + 1) (by omega) (by simp only [List.length_cons] at h2; omega)

/-- Checkpoint events of an uninterrupted loop are exactly the multiples of
the checkpoint interval among the processed-name counts. -/
theorem checkpoint_mem_scanEvents (K : Nat) (_hK : 0 < K) :
    ∀ (names : List String) (scanned m : Nat),
      (Event.checkpointSave m ∈ scanEvents K none names scanned ↔
        scanned < m ∧ m ≤ scanned + names.length ∧ m % K = 0) := by
  intro names
  induction names with
  | nil =>
    intro scanned m
    simp [scanEvents]
    omega
  | cons nm rest ih =>
    intro scanned m
    rw [scanEvents, if_neg (by simp), List.mem_append]
    have ihm := ih (scanned + 1) m
    simp only [List.length_cons]
    constructor
    · intro h
      rcases h with h | h
      · by_cases hk : (scanned + 1) % K = 0
        · rw [if_pos hk] at h
          simp at h
          subst h
          exact ⟨by omega, by omega, hk⟩
        · rw [if_neg hk] at h
          simp at h
      · obtain ⟨h1, h2, h3⟩ := ihm.mp h
        exact ⟨by omega, by omega, h3⟩
    · intro h
      obtain ⟨h1, h2, h3⟩ := h
      by_cases he : m = scanned + 1
      · subst he
        rw [if_pos h3]
        exact Or.inl (List.mem_singleton_self _)
      · exact Or.inr (ihm.mpr ⟨by omega, by omega, h3⟩)

/-- Count of checkpoint events of an uninterrupted loop. -/
theorem checkpoint_count_scanEvents (K : Nat) (_hK : 0 < K) :
    ∀ (names : List String) (scanned : Nat),
      ((scanEvents K none names scanned).countP
        (fun e => match e with | .checkpointSave _ => true | _ => false))
        = (scanned + names.length) / K - scanned / K := by
  intro names
  induction names with
  | nil => intro scanned; simp [scanEvents]
  | cons nm rest ih =>
    intro scanned
    rw [scanEvents, if_neg (by simp), List.countP_append, ih (scanned + 1)]
    have hdvd : (scanned + 1) % K = 0 ↔ K ∣ scanned + 1 :=
      (Nat.dvd_iff_mod_eq_zero ..).symm
    have hsucc : (scanned + 1) / K = scanned / K + if K ∣ scanned + 1 then 1 else 0 :=
      Nat.succ_div scanned K
    have hmono : (scanned + 1) / K ≤ (scanned + 1 + rest.length) / K :=
      Nat.div_le_div_right (by omega)
    have harith : scanned + (nm :: rest).length = scanned + 1 + rest.length := by
      simp only [List.length_cons]
      omega
    rw [harith]
    by_cases hk : (scanned + 1) % K = 0
    · rw [if_pos hk]
      rw [if_pos (hdvd.mp hk)] at hsucc
      have hcp : List.countP
          (fun e => match e with | Event.checkpointSave _ => true | _ => false)
          [Event.checkpointSave (scanned + 1)] = 1 := rfl
      rw [hcp]
      omega
    · rw [if_neg hk]
      rw [if_neg (fun hd => hk (hdvd.mpr hd))] at hsucc
      rw [List.countP_nil]
      omega

/-- C6: the loop checkpoints exactly after every K-th processed name and
performs one final write at loop exit; in particular with K = 12 and 30
targets there are exactly two checkpoints (after names 12 and 24) followed
by the final write after name 30 and the listener cleanup. -/
theorem checkpoint_cadence :
    runMain SAVE_EVERY (List.replicate 30 "x") none =
      [Event.checkpointSave 12, Event.checkpointSave 24,
        Event.finalSave 30, Event.stopListener] ∧
    (∀ K (names : List String) m, 0 < K →
      (Event.checkpointSave m ∈ runMain K names none ↔
        0 < m ∧ m ≤ names.length ∧ m % K = 0)) ∧
    (∀ K (names : List String), 0 < K →
      ((runMain K names none).countP
        (fun e => match e with | .checkpointSave _ => true | _ => false))
        = names.length / K) ∧
    (∀ K (names : List String), Event.finalSave names.length ∈ runMain K names none) := by
  refine ⟨by decide, ?_, ?_, ?_⟩
  · intro K names m hK
    rw [runMain, if_pos (scanCompletes_none names 0)]
    simp only [List.mem_append, List.mem_singleton]
    rw [checkpoint_mem_scanEvents K hK names 0 m]
    simp
  · intro K names hK
    rw [runMain, if_pos (scanCompletes_none names 0)]
    rw [List.countP_append, List.countP_append]
    rw [checkpoint_count_scanEvents K hK names 0]
    simp
  · intro K names
    rw [runMain, if_pos (scanCompletes_none names 0)]
    simp

/-- Witness for C6's general parts at K = 12 over 30 targets. -/
theorem checkpoint_cadence_witness :
    (Event.checkpointSave 24 ∈ runMain 12 (List.replicate 30 "x") none) ∧
    ((runMain 12 (List.replicate 30 "x") none).countP
      (fun e => match e with | .checkpointSave _ => true | _ => false)) = 30 / 12 :=
  ⟨(checkpoint_cadence.2.1 12 (List.replicate 30 "x") 24 (by decide)).mpr (by decide),
   by
     rw [checkpoint_cadence.2.2.1 12 (List.replicate 30 "x") (by decide)]
     simp⟩

/-- C1 (amended): when the run aborts mid-loop, the `finally:` block runs
the listener cleanup but performs no persistence write — no final save
appears in the interrupted trace; the final save happens only on normal
completion.  (Checkpoints already written before the abort do persist.) -/
theorem abort_skips_final_save (K : Nat) (names : List String) (j : Nat)
    (hj : j < names.length) :
    (∀ m, Event.finalSave m ∉ runMain K names (some j)) ∧
    (runMain K names (some j)).getLast? = some Event.stopListener ∧
    Event.finalSave names.length ∈ runMain K names none := by
  have hnc : scanCompletes (some j) names 0 = false :=
    scanCompletes_abort j names 0 (Nat.zero_le j) (by omega)
  refine ⟨?_, ?_, ?_⟩
  · intro m h
    rw [runMain, if_neg (by rw [hnc]; exact Bool.false_ne_true)] at h
    rw [List.mem_append, List.mem_singleton] at h
    rcases h with h | h
    · exact finalSave_not_mem_scanEvents K (some j) names 0 m h
    · exact Event.noConfusion h
  · rw [runMain]
    exact List.getLast?_concat _
  · rw [runMain, if_pos (scanCompletes_none names 0)]
    simp

/-- Witness for C1's amended theorem: abort while processing the 14th name
of 30 (13 processed, one checkpoint already written). -/
theorem abort_skips_final_save_witness :
    Event.finalSave 30 ∉ runMain 12 (List.replicate 30 "x") (some 13) ∧
    (runMain 12 (List.replicate 30 "x") (some 13)).getLast? = some Event.stopListener :=
  ⟨(abort_skips_final_save 12 (List.replicate 30 "x") 13 (by decide)).1 30,
   (abort_skips_final_save 12 (List.replicate 30 "x") 13 (by decide)).2.1⟩

/-- Counterexample to C1 as stated: the final `save_results_profile` sits
inside the `try:` body after the loop, not in the `finally:` block, so a
fail-safe abort while processing the second name (after one name was
fully processed) exits with no save of any kind — the trace holds only
the listener cleanup. -/
theorem interrupted_run_trace :
    runMain 12 (List.replicate 30 "x") (some 1) = [Event.stopListener] := by
  decide

/-! ## Profile resolution (`_safe_profile` / `_resolve_profile`) -/

/-- Python `str.strip()` on a character list: drop leading and trailing
whitespace. -/
def pyStrip (s : List Char) : List Char :=
  ((s.dropWhile Char.isWhitespace).reverse.dropWhile Char.isWhitespace).reverse

/-- Transcription of `_safe_profile(name)` from `scan.py`: `None` or the
empty string yield `None`; otherwise strip whitespace, lower-case, keep
only alphanumeric/underscore/hyphen characters, and turn an empty result
into `None`.  Implemented on the string's character list; Python
`str.isalnum`/`str.lower`/`str.strip` agree with the `Char` predicates on
the ASCII identifiers used for profiles. -/
def safeProfile : Option String → Option String
  | none => none
  | some s =>
    if s = "" then none
    else
      let raw := (pyStrip s.toList).map Char.toLower
      let cleaned := raw.filter (fun ch => ch.isAlphanum || ch == '_' || ch == '-')
      if cleaned = [] then none else some (String.mk cleaned)

/-- Python truthiness of an optional string: present and non-empty. -/
def truthy : Option String → Bool
  | none => false
  | some s => !(s == "")

/-- The three config keys probed by `_resolve_profile`, modelled as the
optional string fields of `metamob.config.json`. -/
structure MetamobConfig where
  profile : Option String
  activeProfile : Option String
  defaultProfile : Option String

/-- `cfg.get("profile") or cfg.get("activeProfile") or cfg.get("defaultProfile")`:
the first truthy value of the `or`-chain, else the last value. -/
def cfgCandidate (cfg : MetamobConfig) : Option String :=
  if truthy cfg.profile then cfg.profile
  else if truthy cfg.activeProfile then cfg.activeProfile
  else cfg.defaultProfile

/-- The `results.json` probe of `_resolve_profile`: outer `none` models a
missing or unreadable results file, the inner option the `activeProfile`
field of its payload. -/
def resolveFromResults : Option (Option String) → String
  | some active =>
    match safeProfile active with
    | some a => a
    | none => "default"
  | none => "default"

/-- Transcription of `_resolve_profile(profile)` from `scan.py`: explicit
truthy argument first (sanitized, empty sanitization falling back to the
default), then the `ARCHI_PROFILE` environment value, then the sibling
config file's declared profile, then the store's recorded `activeProfile`,
then the hardcoded default.  A missing/unreadable config file
(`cfg = none`) and a config whose candidate sanitizes to nothing both fall
through to the results probe, matching the `except: pass` structure. -/
def resolveProfile (profile : Option String) (env : Option String)
    (cfg : Option MetamobConfig) (results : Option (Option String)) : String :=
  if truthy profile then (safeProfile profile).getD "default"
  else
    match safeProfile env with
    | some e => e
    | none =>
      match cfg with
      | some c =>
        match safeProfile (cfgCandidate c) with
        | some cp => cp
        | none => resolveFromResults results
      | none => resolveFromResults results

/-- C7: strict precedence of the profile resolver — a truthy explicit
argument wins over everything (sanitized, with empty sanitization giving
the default), else a sanitizable environment value, else the config file's
candidate, else the store's recorded active profile, else `"default"`; in
particular explicit `"X"` beats environment `"Y"` and resolves to the
sanitized `"x"`. -/
theorem resolve_profile_precedence :
    (∀ (a : Option String) env cfg results, truthy a = true →
      resolveProfile a env cfg results = (safeProfile a).getD "default") ∧
    (∀ (a : Option String) env cfg results e, truthy a = false →
      safeProfile env = some e → resolveProfile a env cfg results = e) ∧
    (∀ (a : Option String) env c results cp, truthy a = false →
      safeProfile env = none → safeProfile (cfgCandidate c) = some cp →
      resolveProfile a env (some c) results = cp) ∧
    (∀ (a : Option String) env cfg r rr, truthy a = false →
      safeProfile env = none →
      (cfg = none ∨ ∃ c, cfg = some c ∧ safeProfile (cfgCandidate c) = none) →
      safeProfile r = some rr →
      resolveProfile a env cfg (some r) = rr) ∧
    (∀ (a : Option String) env cfg, truthy a = false →
      safeProfile env = none →
      (cfg = none ∨ ∃ c, cfg = some c ∧ safeProfile (cfgCandidate c) = none) →
      resolveProfile a env cfg none = "default") ∧
    (∀ cfg results, resolveProfile (some "X") (some "Y") cfg results = "x") := by
  refine ⟨?_, ?_, ?_, ?_, ?_, ?_⟩
  · intro a env cfg results ha
    unfold resolveProfile
    rw [if_pos ha]
  · intro a env cfg results e ha he
    unfold resolveProfile
    rw [if_neg (by rw [ha]; exact Bool.false_ne_true), he]
  · intro a env c results cp ha he hc
    unfold resolveProfile
    rw [if_neg (by rw [ha]; exact Bool.false_ne_true), he]
    simp only [hc]
  · intro a env cfg r rr ha he hcfg hr
    unfold resolveProfile
    rw [if_neg (by rw [ha]; exact Bool.false_ne_true), he]
    rcases hcfg with hcfg | ⟨c, hcfg, hcand⟩ <;> subst hcfg
    · simp only [resolveFromResults, hr]
    · simp only [hcand, resolveFromResults, hr]
  · intro a env cfg ha he hcfg
    unfold resolveProfile
    rw [if_neg (by rw [ha]; exact Bool.false_ne_true), he]
    rcases hcfg with hcfg | ⟨c, hcfg, hcand⟩ <;> subst hcfg
    · rfl
    · simp only [hcand, resolveFromResults]
  · intro cfg results
    have ht : truthy (some "X") = true := rfl
    have hx : safeProfile (some "X") = some "x" := rfl
    unfold resolveProfile
    rw [if_pos ht, hx]
    rfl

/-- Witness for C7: explicit `"X"` with environment `"Y"` resolves to
`"x"` through the first-precedence branch. -/
theorem resolve_profile_precedence_witness :
    resolveProfile (some "X") (some "Y") none none = (safeProfile (some "X")).getD "default" ∧
    resolveProfile (some "X") (some "Y") none none = "x" :=
  ⟨resolve_profile_precedence.1 (some "X") (some "Y") none none rfl,
   resolve_profile_precedence.2.2.2.2.2 none none⟩

/-! ## ScanResult payload construction (`make_payload`) -/

/-- One entry of the `duplicates` list built by `make_payload`. -/
structure DupEntry where
  name : String
  count : Int
  extra : Int
deriving DecidableEq, Repr

/-- The summary fields of the dict returned by `make_payload` (the
timestamp, note, match-mode and grayscale fields carry no information
about `counts` and are omitted). -/
structure Payload where
  scanned : Int
  total : Nat
  counts : List (String × Int)
  needed : List String
  duplicates : List DupEntry
  totalDuplicates : Int
  totalFound : Nat
  totalFoundItems : Int
deriving DecidableEq, Repr

/-- Transcription of `make_payload(names, counts, scanned)` from `scan.py`;
`counts` is the insertion-ordered dict of per-name icon counts. -/
def makePayload (names : List String) (counts : List (String × Int))
    (scanned : Int) : Payload :=
  let needed := (counts.filter (fun nk => nk.2 ≤ 0)).map Prod.fst
  let duplicates := (counts.filter (fun nk => 1 < nk.2)).map
    (fun nk => DupEntry.mk nk.1 nk.2 (max 0 (nk.2 - 1)))
  { scanned := scanned
    total := names.length
    counts := counts
    needed := needed
    duplicates := duplicates
    totalDuplicates := (duplicates.map DupEntry.extra).sum
    totalFound := counts.countP (fun nk => 1 ≤ nk.2)
    totalFoundItems := (counts.map Prod.snd).sum }

/-- C5: `make_payload` derives the summary deterministically from `counts`:
`needed` holds exactly the names with count `≤ 0`, `duplicates` exactly the
entries with count `> 1` carrying `extra = count - 1`, `totalDuplicates` is
the sum over `counts` of the positive excess, `totalFoundItems` the sum of
all counts; the spec's scenario `{A:0, B:2, C:5}` follows. -/
theorem make_payload_summary :
    (∀ names counts scanned (n : String),
      n ∈ (makePayload names counts scanned).needed ↔ ∃ k, (n, k) ∈ counts ∧ k ≤ 0) ∧
    (∀ names counts scanned (d : DupEntry),
      d ∈ (makePayload names counts scanned).duplicates ↔
        (d.name, d.count) ∈ counts ∧ 1 < d.count ∧ d.extra = d.count - 1) ∧
    (∀ names counts scanned,
      (makePayload names counts scanned).totalDuplicates =
        (counts.map (fun nk => if 1 < nk.2 then nk.2 - 1 else 0)).sum) ∧
    (∀ names counts scanned,
      (makePayload names counts scanned).totalFoundItems = (counts.map Prod.snd).sum) ∧
    ((makePayload [] [("A", 0), ("B", 2), ("C", 5)] 3).needed = ["A"] ∧
      (makePayload [] [("A", 0), ("B", 2), ("C", 5)] 3).duplicates =
        [DupEntry.mk "B" 2 1, DupEntry.mk "C" 5 4] ∧
      (makePayload [] [("A", 0), ("B", 2), ("C", 5)] 3).totalDuplicates = 5 ∧
      (makePayload [] [("A", 0), ("B", 2), ("C", 5)] 3).totalFoundItems = 7) := by
  refine ⟨?_, ?_, ?_, fun names counts scanned => rfl, by decide⟩
  · intro names counts scanned n
    simp only [makePayload, List.mem_map, List.mem_filter]
    constructor
    · intro h
      obtain ⟨nk, ⟨hmem, hle⟩, heq⟩ := h
      exact ⟨nk.2, by rw [← heq]; exact hmem, by exact_mod_cast of_decide_eq_true hle⟩
    · intro h
      obtain ⟨k, hmem, hle⟩ := h
      exact ⟨(n, k), ⟨hmem, decide_eq_true hle⟩, rfl⟩
  · intro names counts scanned d
    simp only [makePayload, List.mem_map, List.mem_filter]
    constructor
    · intro h
      obtain ⟨nk, ⟨hmem, hlt⟩, heq⟩ := h
      have hlt' : 1 < nk.2 := of_decide_eq_true hlt
      subst heq
      refine ⟨hmem, hlt', ?_⟩
      show max 0 (nk.2 - 1) = nk.2 - 1
      omega
    · intro h
      obtain ⟨hmem, hlt, hex⟩ := h
      refine ⟨(d.name, d.count), ⟨hmem, decide_eq_true hlt⟩, ?_⟩
      have : max 0 (d.count - 1) = d.count - 1 := by omega
      rw [this, ← hex]
  · intro names counts scanned
    simp only [makePayload]
    induction counts with
    | nil => rfl
    | cons nk rest ih =>
      simp only [List.filter_cons, List.map_cons, List.sum_cons]
      by_cases h : 1 < nk.2
      · rw [if_pos (decide_eq_true h)]
        simp only [List.map_cons, List.sum_cons]
        rw [ih, if_pos h]
        have hmax : max 0 (nk.2 - 1) = nk.2 - 1 := by omega
        rw [hmax]
      · rw [if_neg (by simpa using h), ih, if_neg h]
        omega

/-! ## Multi-scale matcher (`_count_icons_on_screen_multiscale`)

The OpenCV parts are embedded by their interfaces: the correlation score
map of a scale is an arbitrary function from locations to scores (claim
C9 quantifies over every score map), and `np.where(res >= threshold)`
enumerates exactly the locations of the `(Himg - h_s + 1) × (Wimg - w_s + 1)`
result array whose score reaches the threshold. -/

/-- `MIN_TEMPLATE_WH = 12` from the configuration block of `scan.py`. -/
def MIN_TEMPLATE_WH : Nat := 12

/-- `np.where(res >= thr)` over the `matchTemplate` result of shape
`Hres × Wres`: all `(y, x)` with `y < Hres`, `x < Wres` whose score
reaches the threshold, in row-major order. -/
def matchLocations (score : Nat × Nat → ℚ) (thr : ℚ) (Hres Wres : Nat) :
    List (Nat × Nat) :=
  (List.range Hres).flatMap (fun y =>
    (List.range Wres).filterMap (fun x =>
      if thr ≤ score (y, x) then some (y, x) else none))

/-- The candidate-box accumulation loop of
`_count_icons_on_screen_multiscale`: for each scale factor resize the
template (`max(1, int(w*s))`, truncation modelled by the rational floor —
both agree after the `max` with 1 on the code's positive scales), skip
scales below the minimum template size or exceeding the captured region,
and emit one box per thresholded score-map location, offset by the region
origin. -/
def multiscaleBoxes (tplW tplH Wimg Himg : Nat) (regionX regionY : Int)
    (minWH : Nat) (scales : List ℚ) (score : ℚ → Nat × Nat → ℚ) (thr : ℚ) :
    List Box :=
  scales.flatMap (fun s =>
    let wS := max 1 (Int.toNat ⌊(tplW : ℚ) * s⌋)
    let hS := max 1 (Int.toNat ⌊(tplH : ℚ) * s⌋)
    if wS < minWH ∨ hS < minWH then []
    else if Wimg < wS ∨ Himg < hS then []
    else
      (matchLocations (score s) thr (Himg - hS + 1) (Wimg - wS + 1)).map
        (fun yx => Box.mk (regionX + (yx.2 : Int)) (regionY + (yx.1 : Int)) wS hS))

theorem mem_matchLocations {score : Nat × Nat → ℚ} {thr : ℚ} {Hres Wres : Nat}
    {yx : Nat × Nat} (h : yx ∈ matchLocations score thr Hres Wres) :
    yx.1 < Hres ∧ yx.2 < Wres := by
  rw [matchLocations, List.mem_flatMap] at h
  obtain ⟨y, hy, hx⟩ := h
  rw [List.mem_filterMap] at hx
  obtain ⟨x, hx, hif⟩ := hx
  by_cases hs : thr ≤ score (y, x)
  · rw [if_pos hs] at hif
    cases hif
    exact ⟨List.mem_range.mp hy, List.mem_range.mp hx⟩
  · rw [if_neg hs] at hif
    exact absurd hif (by simp)

/-- C9: every box emitted by the multi-scale matcher has width and height
at least the configured minimum template dimension, and lies entirely
inside the capture region (scales producing too-small or too-large
templates are skipped; locations are bounded by the score-map shape and
offset by the region origin). -/
theorem matcher_box_bounds (tplW tplH Wimg Himg : Nat) (regionX regionY : Int)
    (minWH : Nat) (scales : List ℚ) (score : ℚ → Nat × Nat → ℚ) (thr : ℚ)
    (b : Box)
    (hb : b ∈ multiscaleBoxes tplW tplH Wimg Himg regionX regionY minWH scales score thr) :
    (minWH : Int) ≤ b.width ∧ (minWH : Int) ≤ b.height ∧
    regionX ≤ b.left ∧ b.left + b.width ≤ regionX + (Wimg : Int) ∧
    regionY ≤ b.top ∧ b.top + b.height ≤ regionY + (Himg : Int) := by
  rw [multiscaleBoxes, List.mem_flatMap] at hb
  obtain ⟨s, _hs, hmem⟩ := hb
  set wS := max 1 (Int.toNat ⌊(tplW : ℚ) * s⌋) with hwS
  set hS := max 1 (Int.toNat ⌊(tplH : ℚ) * s⌋) with hhS
  by_cases hmin : wS < minWH ∨ hS < minWH
  · rw [if_pos hmin] at hmem
    exact absurd hmem (by simp)
  · rw [if_neg hmin] at hmem
    by_cases hbig : Wimg < wS ∨ Himg < hS
    · rw [if_pos hbig] at hmem
      exact absurd hmem (by simp)
    · rw [if_neg hbig] at hmem
      rw [List.mem_map] at hmem
      obtain ⟨yx, hloc, hbox⟩ := hmem
      obtain ⟨hy, hx⟩ := mem_matchLocations hloc
      push_neg at hmin hbig
      subst hbox
      have hxw : yx.2 + wS ≤ Wimg := by omega
      have hyh : yx.1 + hS ≤ Himg := by omega
      refine ⟨?_, ?_, ?_, ?_, ?_, ?_⟩ <;> simp only [] <;> omega

/-- Witness for C9 at a concrete emitted box: a `16 × 16` template at scale
`1` over a `20 × 20` region anchored at the origin with an
everywhere-passing score map emits the box at `(0, 0)`. -/
theorem matcher_box_bounds_witness :
    (12 : Int) ≤ (Box.mk 0 0 16 16).width ∧ (12 : Int) ≤ (Box.mk 0 0 16 16).height ∧
    (0 : Int) ≤ (Box.mk 0 0 16 16).left ∧
    (Box.mk 0 0 16 16).left + (Box.mk 0 0 16 16).width ≤ (0 : Int) + (16 : Nat) ∧
    (0 : Int) ≤ (Box.mk 0 0 16 16).top ∧
    (Box.mk 0 0 16 16).top + (Box.mk 0 0 16 16).height ≤ (0 : Int) + (16 : Nat) :=
  matcher_box_bounds 16 16 16 16 0 0 12 [1] (fun _ _ => 1) (1 / 2)
    (Box.mk 0 0 16 16) (by
      have h1 : Int.toNat ⌊(16 : ℚ) * 1⌋ = 16 := by
        have h0 : ((16 : ℚ) * 1) = ((16 : ℤ) : ℚ) := by norm_num
        rw [h0, Int.floor_intCast]
        rfl
      have h2 : ((1 : ℚ) / 2) ≤ 1 := by norm_num
      simp [multiscaleBoxes, matchLocations, h1, h2]
      exact ⟨0, 0, ⟨by norm_num, rfl⟩, rfl, rfl⟩)

end ArchiScan
